import Mathlib

/-!
Shallow embedding of the daqingest core (crate `netfetch`): the timestamp
split `ts_msp_lsp_gen`, the index-row staging of `ChannelWriterAll`, the
scalar and array `MsgAcceptor` families, the series-id allocation loop of
`get_series_id`, `CaConnSet.addr_nth_mod`, and the `channel_states`
ordering in `metrics.rs`.  Machine integers are modelled as `Nat` (all the
quantities involved are non-negative in the reachable domain); fallible or
panicking operations return `Option`.
-/

namespace Daqingest

/-- One second in nanoseconds (`SEC` in `channelwriter.rs`). -/
def SEC : Nat := 1000000000

/-- `u32::MAX` seen as a `u64`, the guard constant of `ts_msp_lsp_gen`. -/
def U32MAX : Nat := 4294967295

/-- Embedding of `ts_msp_lsp_gen(ts, series, fak)` from
`netfetch/src/channelwriter.rs`: if `ts < u32::MAX` return `(0, 0)`,
else split `ts - series` by the bucket `fak` and add the per-series
offset back onto the most significant part. -/
def ts_msp_lsp_gen (ts series fak : Nat) : Nat × Nat :=
  if ts < U32MAX then (0, 0)
  else
    let off := series
    let ts_a := ts - off
    let ts_b := ts_a / fak
    let ts_lsp := ts_a % fak
    let ts_msp := ts_b * fak + off
    (ts_msp, ts_lsp)

/-- `ts_msp_lsp_1`: the scalar split, bucket 100 seconds. -/
def ts_msp_lsp_1 (ts series : Nat) : Nat × Nat := ts_msp_lsp_gen ts series (100 * SEC)

/-- `ts_msp_lsp_2`: the wave split, bucket 10 seconds. -/
def ts_msp_lsp_2 (ts series : Nat) : Nat × Nat := ts_msp_lsp_gen ts series (10 * SEC)

/-- The most significant part computed by the split, as used by
`write_msg_impl` for the index-row decision. -/
def tsMsp (fak series ts : Nat) : Nat := (ts_msp_lsp_gen ts series fak).1

/-- C1 -- The claim reads: for every `ts < 2^32` the split returns `(0, 0)`.
The guard in the source is `ts < u32::MAX`, that is `ts < 2^32 - 1`; at
`ts = 2^32 - 1` the split takes the general branch and, for `series = 0`
and the scalar bucket, returns `(0, 2^32 - 1) ≠ (0, 0)`. -/
theorem ts_msp_lsp_gen_low_cex :
    ts_msp_lsp_gen 4294967295 0 (100 * SEC) ≠ (0, 0) ∧ (4294967295 : Nat) < 2 ^ 32 := by
  constructor
  · decide
  · decide

/-- C1 (amended) -- for every `ts < 2^32 - 1` (the source guard
`ts < u32::MAX`), the split returns `(0, 0)` for every series and bucket. -/
theorem ts_msp_lsp_gen_low (ts series fak : Nat) (h : ts < 2 ^ 32 - 1) :
    ts_msp_lsp_gen ts series fak = (0, 0) := by
  unfold ts_msp_lsp_gen U32MAX
  rw [if_pos]
  omega

/-- C1 witness: the amended theorem applied at `ts = 7`. -/
theorem ts_msp_lsp_gen_low_witness :
    ts_msp_lsp_gen 7 3 (100 * SEC) = (0, 0) :=
  ts_msp_lsp_gen_low 7 3 (100 * SEC) (by decide)

/-- C4 -- for `ts ≥ 2^32` (and `series` in the `u32` range, positive
bucket) the split satisfies the specified closed form:
`ts_msp = ((ts - series % bucket) / bucket) * bucket + series % bucket`,
`ts_lsp = (ts - series % bucket) % bucket`, and `ts_lsp < bucket`. -/
theorem ts_msp_lsp_gen_spec (ts series bucket : Nat)
    (h1 : 2 ^ 32 ≤ ts) (h2 : series < 2 ^ 32) (h3 : 0 < bucket) :
    (ts_msp_lsp_gen ts series bucket).1
        = ((ts - series % bucket) / bucket) * bucket + series % bucket ∧
      (ts_msp_lsp_gen ts series bucket).2 = (ts - series % bucket) % bucket ∧
      (ts_msp_lsp_gen ts series bucket).2 < bucket := by
  have hguard : ¬ ts < U32MAX := by
    unfold U32MAX; omega
  have hdm : bucket * (series / bucket) + series % bucket = series :=
    Nat.div_add_mod series bucket
  have hsub : ts - series % bucket = (ts - series) + bucket * (series / bucket) := by
    omega
  have e : ts_msp_lsp_gen ts series bucket
      = ((ts - series) / bucket * bucket + series, (ts - series) % bucket) := by
    unfold ts_msp_lsp_gen
    rw [if_neg hguard]
  rw [e]
  refine ⟨?_, ?_, ?_⟩
  · show (ts - series) / bucket * bucket + series
        = (ts - series % bucket) / bucket * bucket + series % bucket
    rw [hsub, Nat.add_mul_div_left _ _ h3, Nat.add_mul, add_assoc,
      Nat.mul_comm (series / bucket) bucket, hdm]
  · show (ts - series) % bucket = (ts - series % bucket) % bucket
    rw [hsub, Nat.add_mul_mod_self_left]
  · show (ts - series) % bucket < bucket
    exact Nat.mod_lt _ h3

/-- C4 witness: the split of the spec example,
`split(123·10⁹, 5, 100·10⁹) = (100·10⁹ + 5, 23·10⁹ - 5)`. -/
theorem ts_msp_lsp_gen_spec_witness :
    (ts_msp_lsp_gen (123 * 10 ^ 9) 5 (100 * 10 ^ 9)).1 = 100 * 10 ^ 9 + 5 ∧
      (ts_msp_lsp_gen (123 * 10 ^ 9) 5 (100 * 10 ^ 9)).2 = 23 * 10 ^ 9 - 5 ∧
      (ts_msp_lsp_gen (123 * 10 ^ 9) 5 (100 * 10 ^ 9)).2 < 100 * 10 ^ 9 := by
  have h := ts_msp_lsp_gen_spec (123 * 10 ^ 9) 5 (100 * 10 ^ 9)
    (by norm_num) (by norm_num) (by norm_num)
  refine ⟨?_, ?_, h.2.2⟩
  · rw [h.1]; norm_num
  · rw [h.2.1]; norm_num

/-- Index-row staging of `ChannelWriterAll.write_msg_impl` over a sequence
of calls.  The state is `ts_msp_last` (initialized to `0` in
`ChannelWriterAll::new`); per call the split is computed and, when the
most significant part differs from `ts_msp_last`, one index row
`(series, ts_msp, dtype_mark)` is staged and `ts_msp_last` updated.
The returned list has one entry per call: `some row` when that call
staged the index insert, `none` otherwise. -/
def write_msg_fold (fak series dmark : Nat) (st : Nat) : List Nat → List (Option (Nat × Nat × Nat))
  | [] => []
  | ts :: rest =>
    let m := (ts_msp_lsp_gen ts series fak).1
    if m ≠ st then some (series, m, dmark) :: write_msg_fold fak series dmark m rest
    else none :: write_msg_fold fak series dmark st rest

/-- The `ts_msp` values of the index rows staged across a call sequence. -/
def stagedIndexMsps (fak series dmark st : Nat) (l : List Nat) : List Nat :=
  (write_msg_fold fak series dmark st l).filterMap (fun o => o.map (fun r => r.2.1))

/-- The most significant part is monotone in the timestamp. -/
theorem tsMsp_mono (fak series : Nat) {t1 t2 : Nat} (h : t1 ≤ t2) :
    tsMsp fak series t1 ≤ tsMsp fak series t2 := by
  unfold tsMsp ts_msp_lsp_gen
  by_cases h1 : t1 < U32MAX
  · rw [if_pos h1]
    by_cases h2 : t2 < U32MAX
    · rw [if_pos h2]
    · rw [if_neg h2]
      exact Nat.zero_le _
  · have h2 : ¬ t2 < U32MAX := by omega
    rw [if_neg h1, if_neg h2]
    show (t1 - series) / fak * fak + series ≤ (t2 - series) / fak * fak + series
    have := Nat.div_le_div_right (c := fak) (Nat.sub_le_sub_right h series)
    exact Nat.add_le_add_right (Nat.mul_le_mul_right fak this) series

/-- Invariant for C3: starting from `ts_msp_last = st`, with timestamps
sorted and every split dominating `st`, the staged `ts_msp` values
prefixed by `st` form a strictly increasing chain. -/
theorem stagedIndexMsps_chain (fak series dmark : Nat) :
    ∀ (l : List Nat), l.Sorted (· ≤ ·) → ∀ st, (∀ ts ∈ l, st ≤ tsMsp fak series ts) →
      (st :: stagedIndexMsps fak series dmark st l).Chain' (· < ·)
  | [], _, st, _ => List.chain'_singleton st
  | ts :: rest, hs, st, hst => by
    have hrest : rest.Sorted (· ≤ ·) := hs.of_cons
    have hts : ∀ ts2 ∈ rest, ts ≤ ts2 := fun ts2 h2 => List.rel_of_sorted_cons hs ts2 h2
    have hstm : st ≤ tsMsp fak series ts := hst ts (List.mem_cons_self ts rest)
    unfold stagedIndexMsps write_msg_fold
    by_cases hm : (ts_msp_lsp_gen ts series fak).1 ≠ st
    · rw [if_pos hm]
      simp only [List.filterMap_cons, Option.map_some]
      have ih := stagedIndexMsps_chain fak series dmark rest hrest
        ((ts_msp_lsp_gen ts series fak).1)
        (fun ts2 h2 => (tsMsp_mono fak series (hts ts2 h2)))
      refine List.Chain'.cons ?_ ih
      exact lt_of_le_of_ne hstm (fun heq => hm heq.symm)
    · rw [if_neg hm]
      simp only [List.filterMap_cons]
      have hmeq : (ts_msp_lsp_gen ts series fak).1 = st := by
        by_contra hne
        exact hm hne
      exact stagedIndexMsps_chain fak series dmark rest hrest st
        (fun ts2 h2 => hmeq ▸ tsMsp_mono fak series (hts ts2 h2))

/-- C3 -- for a writer whose calls come with non-decreasing timestamps,
no two calls stage an index row with the same `ts_msp` value: the staged
`ts_msp` values are pairwise distinct. -/
theorem stagedIndexMsps_nodup (fak series dmark : Nat) (l : List Nat)
    (hs : l.Sorted (· ≤ ·)) :
    (stagedIndexMsps fak series dmark 0 l).Nodup := by
  have h := stagedIndexMsps_chain fak series dmark l hs 0 (fun ts _ => Nat.zero_le _)
  have hp : (0 :: stagedIndexMsps fak series dmark 0 l).Pairwise (· < ·) :=
    List.chain'_iff_pairwise.mp h
  exact (List.pairwise_cons.mp hp).2.imp Nat.ne_of_lt

/-- C3 witness: the distinctness theorem applied to a concrete sorted
call sequence crossing two buckets. -/
theorem stagedIndexMsps_nodup_witness :
    (stagedIndexMsps (100 * SEC) 7 3 0 [5000000000, 5000000001, 200000000000]).Nodup :=
  stagedIndexMsps_nodup (100 * SEC) 7 3 [5000000000, 5000000001, 200000000000]
    (by norm_num [List.Sorted])

/-- An in-range `getD` is a member of the list. -/
theorem getD_mem_of_lt {α : Type} (l : List α) (i : Nat) (d : α) (h : i < l.length) :
    l.getD i d ∈ l := by
  rw [List.getD_eq_getElem _ _ h]
  exact List.getElem_mem h

/-- Characterization of which calls stage an index row, starting from an
arbitrary `ts_msp_last = st` dominated by every split of the call list:
call `i` stages iff its `ts_msp` differs from `st` and from every earlier
call's `ts_msp`. -/
theorem write_msg_fold_char (fak series dmark : Nat) :
    ∀ (l : List Nat), l.Sorted (· ≤ ·) →
      ∀ st, (∀ ts ∈ l, st ≤ tsMsp fak series ts) →
      ∀ i, i < l.length →
      (write_msg_fold fak series dmark st l).getD i none =
        if tsMsp fak series (l.getD i 0) ≠ st ∧
            (∀ j < i, tsMsp fak series (l.getD j 0) ≠ tsMsp fak series (l.getD i 0))
        then some (series, tsMsp fak series (l.getD i 0), dmark)
        else none
  | [], _, st, _, i, hi => absurd hi (Nat.not_lt_zero i)
  | ts :: rest, hs, st, hst, i, hi => by
    have hrest : rest.Sorted (· ≤ ·) := hs.of_cons
    have hts : ∀ ts2 ∈ rest, ts ≤ ts2 := fun ts2 h2 => List.rel_of_sorted_cons hs ts2 h2
    have hstm : st ≤ tsMsp fak series ts := hst ts (List.mem_cons_self ts rest)
    unfold write_msg_fold
    by_cases hm : (ts_msp_lsp_gen ts series fak).1 ≠ st
    · rw [if_pos hm]
      match i, hi with
      | 0, _ =>
        rw [if_pos]
        · rfl
        · exact ⟨hm, fun j hj => absurd hj (Nat.not_lt_zero j)⟩
      | Nat.succ k, hi =>
        have hk : k < rest.length := Nat.lt_of_succ_lt_succ hi
        have hdom : ∀ ts2 ∈ rest, (ts_msp_lsp_gen ts series fak).1 ≤ tsMsp fak series ts2 :=
          fun ts2 h2 => tsMsp_mono fak series (hts ts2 h2)
        have ih := write_msg_fold_char fak series dmark rest hrest
          ((ts_msp_lsp_gen ts series fak).1) hdom k hk
        have hA : (ts_msp_lsp_gen ts series fak).1 ≤ tsMsp fak series (rest.getD k 0) :=
          hdom _ (getD_mem_of_lt rest k 0 hk)
        have hstA : st < tsMsp fak series (rest.getD k 0) :=
          lt_of_lt_of_le (lt_of_le_of_ne hstm (Ne.symm hm)) hA
        simp only [List.getD_cons_succ]
        rw [ih]
        refine if_congr ⟨?_, ?_⟩ rfl rfl
        · rintro ⟨hne, hall⟩
          refine ⟨Ne.symm (Nat.ne_of_lt hstA), ?_⟩
          intro j hj
          match j, hj with
          | 0, _ => exact Ne.symm hne
          | Nat.succ j2, hj => exact hall j2 (Nat.lt_of_succ_lt_succ hj)
        · rintro ⟨_, hall⟩
          refine ⟨Ne.symm (hall 0 (Nat.succ_pos k)), ?_⟩
          intro j2 hj2
          exact hall (Nat.succ j2) (Nat.succ_lt_succ hj2)
    · rw [if_neg hm]
      have hmeq : (ts_msp_lsp_gen ts series fak).1 = st := Decidable.not_not.mp hm
      match i, hi with
      | 0, _ =>
        rw [if_neg]
        · rfl
        · rintro ⟨hne, _⟩
          exact hne hmeq
      | Nat.succ k, hi =>
        have hk : k < rest.length := Nat.lt_of_succ_lt_succ hi
        have hdom : ∀ ts2 ∈ rest, st ≤ tsMsp fak series ts2 :=
          fun ts2 h2 => hmeq ▸ tsMsp_mono fak series (hts ts2 h2)
        have ih := write_msg_fold_char fak series dmark rest hrest st hdom k hk
        simp only [List.getD_cons_succ]
        rw [ih]
        refine if_congr ⟨?_, ?_⟩ rfl rfl
        · rintro ⟨hne, hall⟩
          refine ⟨hne, ?_⟩
          intro j hj
          match j, hj with
          | 0, _ =>
            show tsMsp fak series ts ≠ _
            rw [show tsMsp fak series ts = st from hmeq]
            exact Ne.symm hne
          | Nat.succ j2, hj => exact hall j2 (Nat.lt_of_succ_lt_succ hj)
        · rintro ⟨hne, hall⟩
          refine ⟨hne, ?_⟩
          intro j2 hj2
          exact hall (Nat.succ j2) (Nat.succ_lt_succ hj2)

/-- C2 (amended) -- starting from the initial `ts_msp_last = 0`, with
non-decreasing timestamps, call `i` stages exactly one index row
`(series, ts_msp, dtype_mark)` iff its computed `ts_msp` is nonzero and
differs from the `ts_msp` of every earlier call; in every other case
(including a first call whose `ts_msp` is `0`) it stages none. -/
theorem write_msg_first_fresh (fak series dmark : Nat) (l : List Nat)
    (hs : l.Sorted (· ≤ ·)) (i : Nat) (hi : i < l.length) :
    (write_msg_fold fak series dmark 0 l).getD i none =
      if tsMsp fak series (l.getD i 0) ≠ 0 ∧
          (∀ j < i, tsMsp fak series (l.getD j 0) ≠ tsMsp fak series (l.getD i 0))
      then some (series, tsMsp fak series (l.getD i 0), dmark)
      else none :=
  write_msg_fold_char fak series dmark l hs 0 (fun _ _ => Nat.zero_le _) i hi

/-- C2 counterexample to the claim as stated: the very first call with
`ts = 0` computes `ts_msp = 0`, which has not occurred in any earlier
call, yet stages no index row, because `ts_msp_last` is initialized
to `0` in `ChannelWriterAll::new`. -/
theorem write_msg_first_fresh_cex :
    write_msg_fold (100 * SEC) 0 3 0 [0] = [none] ∧
      (ts_msp_lsp_gen 0 0 (100 * SEC)).1 = 0 := by
  constructor
  · rfl
  · rfl

/-- C2 witness: the amended theorem applied to a one-call sequence with
a large timestamp; the call is fresh with nonzero `ts_msp` and stages
the index row. -/
theorem write_msg_first_fresh_witness :
    (write_msg_fold (100 * SEC) 7 3 0 [5000000000]).getD 0 none = some (7, 7, 3) := by
  have h := write_msg_first_fresh (100 * SEC) 7 3 [5000000000]
    (List.sorted_singleton 5000000000) 0 (by decide)
  rw [h]
  rw [if_pos]
  · rfl
  · exact ⟨by decide, fun j hj => absurd hj (Nat.not_lt_zero j)⟩

/-- `i16::from_be_bytes` on a two-byte slice (bytes as `Nat < 256`),
two's complement. -/
def i16_from_be_bytes (b : List Nat) : Int :=
  let u := b.getD 0 0 * 256 + b.getD 1 0
  if u < 32768 then (u : Int) else (u : Int) - 65536

/-- `i16::from_le_bytes` on a two-byte slice. -/
def i16_from_le_bytes (b : List Nat) : Int :=
  let u := b.getD 1 0 * 256 + b.getD 0 0
  if u < 32768 then (u : Int) else (u : Int) - 65536

/-- `impl_msg_acceptor_scalar!::accept`: decodes `fr.data()[0..STL]` as
one element and pushes the row `(series, ts_msp, ts_lsp, pulse, value)`.
The slice `fr.data()[0..STL]` is taken without a length guard; when the
payload is shorter than the element size `S` the Rust slice indexing is
out of bounds and the call panics, modelled here as `none`. -/
def scalar_accept {α : Type} (dec : List Nat → α) (S : Nat) (series : Int)
    (values : List (Int × Int × Int × Int × α)) (ts_msp ts_lsp pulse : Int)
    (data : List Nat) : Option (List (Int × Int × Int × Int × α)) :=
  if S ≤ data.length then
    some (values ++ [(series, ts_msp, ts_lsp, pulse, dec (data.take S))])
  else
    none

/-- The `MsgAcceptorScalarI16BE` accept operation (element size 2,
big endian). -/
def MsgAcceptorScalarI16BE_accept := scalar_accept i16_from_be_bytes 2

/-- `impl_msg_acceptor_array!::accept`: `vc = data.len() / STL` elements
are decoded from consecutive `S`-byte windows, then the element vector is
truncated to `array_truncate`, and one row is pushed. -/
def array_accept {α : Type} (dec : List Nat → α) (S array_truncate : Nat) (series : Int)
    (values : List (Int × Int × Int × Int × List α)) (ts_msp ts_lsp pulse : Int)
    (data : List Nat) : List (Int × Int × Int × Int × List α) :=
  let vc := data.length / S
  let vals := ((List.range vc).map (fun i => dec ((data.drop (i * S)).take S))).take array_truncate
  values ++ [(series, ts_msp, ts_lsp, pulse, vals)]

/-- The `MsgAcceptorArrayI16LE` accept operation (element size 2,
little endian). -/
def MsgAcceptorArrayI16LE_accept := array_accept i16_from_le_bytes 2

/-- A batch of prepared statements; `Batch::append_statement` appends a
clone of the acceptor's prepared statement (statements are modelled by an
identifier). -/
structure Batch where
  statements : List Nat

/-- The loop `for _ in 0..nn { batch.append_statement(query.clone()) }`
of `flush_batch`, starting from `Batch::new(BatchType::Unlogged)`. -/
def appendStatements (query nn : Nat) : Batch :=
  (List.range nn).foldl (fun b _ => { statements := b.statements ++ [query] }) { statements := [] }

/-- `flush_batch` (identical in the scalar and the array macro): swaps
the staged rows out with `mem::replace(&mut self.values, vec![])`, builds
a batch with one appended statement per row, and hands `(batch, rows)` to
the returned write future.  Result: (new buffer, batch, rows moved into
the future). -/
def flush_batch {ρ : Type} (query : Nat) (values : List ρ) : List ρ × Batch × List ρ :=
  let vt := values
  let nn := vt.length
  let batch := appendStatements query nn
  ([], batch, vt)

theorem appendStatements_length (query nn : Nat) :
    (appendStatements query nn).statements.length = nn := by
  have h : ∀ (l : List Nat) (b : Batch),
      (l.foldl (fun b _ => { statements := b.statements ++ [query] } : Batch → Nat → Batch) b).statements.length
        = b.statements.length + l.length := by
    intro l
    induction l with
    | nil => intro b; simp
    | cons x xs ih =>
      intro b
      rw [List.foldl_cons, ih]
      simp
      omega
  unfold appendStatements
  rw [h]
  simp

/-- C9 -- `flush_batch` leaves the staged-row buffer empty and the batch
it builds contains exactly `nn` appended statements, `nn` being the
buffer length immediately before the flush; the rows handed to the write
future are exactly the pre-flush rows. -/
theorem flush_batch_spec {ρ : Type} (query : Nat) (values : List ρ) :
    (flush_batch query values).1 = [] ∧
      (flush_batch query values).2.1.statements.length = values.length ∧
      (flush_batch query values).2.2 = values := by
  refine ⟨rfl, ?_, rfl⟩
  exact appendStatements_length query values.length

/-- C7 -- the array acceptor appends exactly one row, and the value list
of that row has exactly `min (⌊L / S⌋) array_truncate` elements, `L`
being the payload length; trailing partial elements are ignored. -/
theorem array_accept_spec {α : Type} (dec : List Nat → α) (S array_truncate : Nat)
    (series : Int) (values : List (Int × Int × Int × Int × List α))
    (ts_msp ts_lsp pulse : Int) (data : List Nat) :
    ∃ vals : List α,
      array_accept dec S array_truncate series values ts_msp ts_lsp pulse data
          = values ++ [(series, ts_msp, ts_lsp, pulse, vals)] ∧
        vals.length = min (data.length / S) array_truncate := by
  refine ⟨_, rfl, ?_⟩
  simp [Nat.min_comm]

/-- C10 -- the scalar acceptor slices the first `S` bytes of the payload
without a length guard: on every frame whose payload is shorter than `S`
bytes, the call panics (out-of-bounds slice, modelled as `none`) instead
of returning a value, so `accept` is not total over frames. -/
theorem scalar_accept_short_panics {α : Type} (dec : List Nat → α) (S : Nat)
    (series : Int) (values : List (Int × Int × Int × Int × α))
    (ts_msp ts_lsp pulse : Int) (data : List Nat) (h : data.length < S) :
    scalar_accept dec S series values ts_msp ts_lsp pulse data = none := by
  unfold scalar_accept
  rw [if_neg]
  omega

/-- C10 witness: an `i16` big-endian scalar acceptor (element size 2) on
a one-byte payload. -/
theorem scalar_accept_short_panics_witness :
    scalar_accept i16_from_be_bytes 2 1 [] 0 0 0 [63] = none :=
  scalar_accept_short_panics i16_from_be_bytes 2 1 [] 0 0 0 [63] (by decide)

/-- `i64::MAX` as a `u64` value. -/
def i64MAX : Nat := 9223372036854775807

/-- The failure message produced by `get_series_id` after the loop of 200
attempts is exhausted (format arguments elided). -/
def seriesErrMsg : String := "get_series_id  can not create and insert series id"

/-- `Existence` from `netfetch/src/series.rs`. -/
inductive Existence (α : Type) where
  | Created (x : α)
  | Existing (x : α)
deriving DecidableEq, Repr

/-- The candidate loop of `get_series_id` (`for _ in 0..200`): `cands`
lists the successive md5-derived candidate ids, one per iteration (200 in
the source), and `insertOk c` reports whether the
`INSERT ... ON CONFLICT DO NOTHING` for candidate `c` inserted one row.
A candidate with the high bit set (`series > i64::MAX`) or equal to `0`
is skipped; then comes the (unreachable) bad-id error return of the
source; a successful insert returns the id; a conflict retries (the 20 ms
sleep is timing and is not modelled). -/
def seriesInsertLoop (insertOk : Nat → Bool) : List Nat → Except String Nat
  | [] => .error seriesErrMsg
  | c :: rest =>
    if i64MAX < c then seriesInsertLoop insertOk rest
    else if c = 0 then seriesInsertLoop insertOk rest
    else if c = 0 ∨ i64MAX < c then .error "attempt to insert bad series id"
    else if insertOk c then .ok c
    else seriesInsertLoop insertOk rest

/-- `get_series_id`: `lookup` is the catalog query result for the tuple
(`select series from series_by_channel where ...`); when it is empty the
insert loop runs, otherwise the first row is returned as `Existing`. -/
def get_series_id (lookup cands : List Nat) (insertOk : Nat → Bool) :
    Except String (Existence Nat) :=
  if lookup.length = 0 then
    match seriesInsertLoop insertOk cands with
    | .ok c => .ok (.Created c)
    | .error e => .error e
  else
    .ok (.Existing (lookup.headD 0))

theorem seriesInsertLoop_ok_bounds (insertOk : Nat → Bool) :
    ∀ (cands : List Nat) (id : Nat), seriesInsertLoop insertOk cands = .ok id →
      0 < id ∧ id ≤ i64MAX
  | [], id, h => by exact absurd h (by unfold seriesInsertLoop; intro hc; cases hc)
  | c :: rest, id, h => by
    unfold seriesInsertLoop at h
    by_cases h1 : i64MAX < c
    · rw [if_pos h1] at h
      exact seriesInsertLoop_ok_bounds insertOk rest id h
    · rw [if_neg h1] at h
      by_cases h2 : c = 0
      · rw [if_pos h2] at h
        exact seriesInsertLoop_ok_bounds insertOk rest id h
      · rw [if_neg h2, if_neg (by tauto)] at h
        by_cases h3 : insertOk c = true
        · rw [if_pos h3] at h
          cases h
          exact ⟨Nat.pos_of_ne_zero h2, Nat.le_of_not_lt h1⟩
        · rw [if_neg h3] at h
          exact seriesInsertLoop_ok_bounds insertOk rest id h

theorem seriesInsertLoop_all_conflict (insertOk : Nat → Bool) :
    ∀ (cands : List Nat), (∀ c ∈ cands, insertOk c = false) →
      seriesInsertLoop insertOk cands = .error seriesErrMsg
  | [], _ => rfl
  | c :: rest, hall => by
    have hrest : ∀ c2 ∈ rest, insertOk c2 = false :=
      fun c2 h2 => hall c2 (List.mem_cons_of_mem c h2)
    have hc : insertOk c = false := hall c (List.mem_cons_self c rest)
    unfold seriesInsertLoop
    by_cases h1 : i64MAX < c
    · rw [if_pos h1]
      exact seriesInsertLoop_all_conflict insertOk rest hrest
    · rw [if_neg h1]
      by_cases h2 : c = 0
      · rw [if_pos h2]
        exact seriesInsertLoop_all_conflict insertOk rest hrest
      · rw [if_neg h2, if_neg (by tauto), if_neg (by simp [hc])]
        exact seriesInsertLoop_all_conflict insertOk rest hrest

/-- C8 -- with no catalog row for the tuple, `get_series_id` returns
`Created id` only for ids with `0 < id ≤ i64::MAX` (candidates equal to
`0` or with the high bit set are skipped), and when no insert succeeds in
the 200 loop attempts it returns the error instead of an id. -/
theorem get_series_id_created_spec (cands : List Nat) (insertOk : Nat → Bool)
    (_hlen : cands.length = 200) :
    (∀ id, get_series_id [] cands insertOk = .ok (.Created id) → 0 < id ∧ id ≤ i64MAX) ∧
      ((∀ c ∈ cands, insertOk c = false) →
        get_series_id [] cands insertOk = .error seriesErrMsg) := by
  constructor
  · intro id h
    unfold get_series_id at h
    simp only [List.length_nil, reduceIte] at h
    cases heq : seriesInsertLoop insertOk cands with
    | ok c =>
      rw [heq] at h
      cases h
      exact seriesInsertLoop_ok_bounds insertOk cands id heq
    | error e =>
      rw [heq] at h
      cases h
  · intro hall
    unfold get_series_id
    simp only [List.length_nil, reduceIte]
    rw [seriesInsertLoop_all_conflict insertOk cands hall]

/-- C8 witness: 200 candidates all equal to `0` (thus all skipped), no
insert ever succeeds, and the call returns the error. -/
theorem get_series_id_created_spec_witness :
    get_series_id [] (List.replicate 200 0) (fun _ => false) = .error seriesErrMsg :=
  (get_series_id_created_spec (List.replicate 200 0) (fun _ => false)
    (List.length_replicate 200 0)).2 (fun _ _ => rfl)

/-- `CaConnSet.addr_nth_mod` from `netfetch/src/ca/connset.rs`: the
`BTreeMap` is modelled by its key sequence in ordered (iteration) order;
`g.keys().take(n).last()` is `(ks.take n).getLast?`. -/
def addr_nth_mod {α : Type} (ks : List α) (n : Nat) : Option α :=
  let len := ks.length
  if len < 1 then none
  else (ks.take (n % len)).getLast?

/-- C5 counterexample to the claim as stated: on a non-empty connection
set with one key and `n = 0`, `take(0).last()` returns none although the
claim promises the `0`-th key. -/
theorem addr_nth_mod_cex :
    addr_nth_mod ([42] : List Nat) 0 = none ∧ ([42] : List Nat).length ≠ 0 := by
  constructor
  · rfl
  · decide

/-- C5 (amended) -- on an empty set `addr_nth_mod` returns none; on a
non-empty set of size `len`, it returns none when `n % len = 0` and
otherwise the `(n % len - 1)`-th key of the ordered key sequence
(`take(n % len).last()`, an off-by-one from the n-th key). -/
theorem addr_nth_mod_spec {α : Type} (ks : List α) (n : Nat) :
    addr_nth_mod ks n =
      if ks.length = 0 then none
      else if n % ks.length = 0 then none
      else ks.get? (n % ks.length - 1) := by
  unfold addr_nth_mod
  by_cases h0 : ks.length = 0
  · rw [if_pos (by omega), if_pos h0]
  · have hpos : 0 < ks.length := Nat.pos_of_ne_zero h0
    rw [if_neg (by omega), if_neg h0]
    have hm : n % ks.length < ks.length := Nat.mod_lt n hpos
    by_cases hz : n % ks.length = 0
    · rw [if_pos hz, hz]
      rfl
    · rw [if_neg hz]
      rw [List.getLast?_eq_getElem?, List.getElem?_take_of_lt (by
        rw [List.length_take]
        omega)]
      rw [List.get?_eq_getElem?]
      congr 1
      rw [List.length_take]
      omega

/-- `ChannelStateInfo` as used by the `channel_states` endpoint; only the
`interest_score` (a `u32`) matters for the ordering, the remaining fields
(address, channel name, state, last activity) are collapsed into
`info`. -/
structure ChannelStateInfo where
  interest_score : Nat
  info : Nat
deriving DecidableEq, Repr

/-- The sort key comparison of
`res.sort_unstable_by_key(|v| u32::MAX - v.interest_score as u32)`:
ascending in `u32::MAX - interest_score`. -/
def byKeyLe (a b : ChannelStateInfo) : Prop :=
  U32MAX - a.interest_score ≤ U32MAX - b.interest_score

instance : DecidableRel byKeyLe :=
  fun _ _ => inferInstanceAs (Decidable (_ ≤ _))

instance : IsTotal ChannelStateInfo byKeyLe :=
  ⟨fun _ _ => Nat.le_total _ _⟩

instance : IsTrans ChannelStateInfo byKeyLe :=
  ⟨fun _ _ _ => Nat.le_trans⟩

/-- The list transformation of `channel_states` in `metrics.rs`: sort by
key `u32::MAX - interest_score` ascending (`sort_unstable_by_key`,
modelled by a sort over `byKeyLe`; instability only affects ties), then
`.rev().take(10)`. -/
def channel_states (res : List ChannelStateInfo) : List ChannelStateInfo :=
  ((List.insertionSort byKeyLe res).reverse).take 10

/-- C6 counterexample to the claim as stated: two entries with scores
`1` and `2` come out in the order `[1, 2]`, which is not descending. -/
theorem channel_states_desc_cex :
    channel_states [⟨1, 0⟩, ⟨2, 0⟩] = [⟨1, 0⟩, ⟨2, 0⟩] ∧
      ¬ ((channel_states [⟨1, 0⟩, ⟨2, 0⟩]).Pairwise
          fun a b => b.interest_score ≤ a.interest_score) := by
  constructor
  · rfl
  · decide

/-- C6 (amended) -- for scores in the `u32` range, the list produced by
`channel_states` is ordered by ascending `interest_score` and limited to
at most 10 entries (the lowest scores: the descending sort is reversed
before truncating). -/
theorem channel_states_asc (res : List ChannelStateInfo)
    (hsc : ∀ e ∈ res, e.interest_score < 2 ^ 32) :
    ((channel_states res).Pairwise fun a b => a.interest_score ≤ b.interest_score) ∧
      (channel_states res).length ≤ 10 := by
  constructor
  · have hs : (List.insertionSort byKeyLe res).Pairwise byKeyLe :=
      List.sorted_insertionSort byKeyLe res
    have hrev : ((List.insertionSort byKeyLe res).reverse).Pairwise
        (fun a b => byKeyLe b a) := List.pairwise_reverse.mpr hs
    have hmem : ∀ e ∈ (List.insertionSort byKeyLe res).reverse, e.interest_score < 2 ^ 32 := by
      intro e he
      exact hsc e ((List.perm_insertionSort byKeyLe res).mem_iff.mp (List.mem_reverse.mp he))
    have hasc : ((List.insertionSort byKeyLe res).reverse).Pairwise
        (fun a b => a.interest_score ≤ b.interest_score) := by
      refine hrev.imp_of_mem ?_
      intro a b ha hb hk
      have ha2 := hmem a ha
      have hb2 := hmem b hb
      unfold byKeyLe U32MAX at hk
      omega
    exact List.Pairwise.sublist (List.take_sublist 10 _) hasc
  · unfold channel_states
    rw [List.length_take]
    omega

/-- C6 witness: the amended theorem at a concrete two-entry list with
scores 5 and 1. -/
theorem channel_states_asc_witness :
    ((channel_states [⟨5, 0⟩, ⟨1, 1⟩]).Pairwise
        fun a b => a.interest_score ≤ b.interest_score) ∧
      (channel_states [⟨5, 0⟩, ⟨1, 1⟩]).length ≤ 10 :=
  channel_states_asc [⟨5, 0⟩, ⟨1, 1⟩] (by decide)

end Daqingest
